import Mathlib

/-!
Verification development for the `biggr_maps` layout engine.

The Python sources (`map.py`, `kgml.py`, `pathway.py`, `template.py`) are
shallowly embedded below.  Floating point numbers are modelled by `ℝ` where
trigonometry is involved and by `ℚ` where the source only performs exact
comparisons and ring arithmetic.  A Python expression that can raise is
modelled with `Except`/`Option`.
-/

namespace BiggrMaps

/-- Python `math.atan2 y x`: the argument of the point `(x, y)`, in `(-π, π]`. -/
noncomputable def atan2 (y x : ℝ) : ℝ := Complex.arg ⟨x, y⟩

/-- Python `math.remainder x y`: IEEE-style remainder `x - y * round (x / y)`.
(CPython rounds ties to even while `round` rounds ties up; no result in this
file is evaluated at a tie.) -/
noncomputable def pyRemainder (x y : ℝ) : ℝ := x - y * (round (x / y) : ℤ)

/-- `cubic_bezier_bt` from `map.py`. -/
noncomputable def cubic_bezier_bt (t b0 b1 b2 b3 : ℝ) : ℝ :=
  (1 - t) ^ 3 * b0 + 3 * t * (1 - t) ^ 2 * b1 + 3 * t ^ 2 * (1 - t) * b2 + t ^ 3 * b3

/-- `non_primary_scaling` from `map.py`. -/
noncomputable def non_primary_scaling (x : ℝ) : ℝ :=
  (1 - min (x - 1) 5 / 5) * 0.3 + 0.5

/-- The subset of `PlacementOptions` (from `map.py`) that the placement
geometry reads; the label-layout fields (`text_y_correction`, `text_offset_f`)
only affect label positions and are not modelled. -/
structure PlacementOptions where
  delta : ℝ
  delta_tolerance : ℝ
  scale : ℝ
  b1_scale : ℝ
  b2_scale : ℝ
  no_primary_length_f : ℝ → ℝ

/-- The default values of `PlacementOptions.__init__`. -/
noncomputable def defaultPlacementOptions : PlacementOptions where
  delta := Real.pi * 0.15
  delta_tolerance := 0.5
  scale := 3.0
  b1_scale := 0.3
  b2_scale := 0.8
  no_primary_length_f := non_primary_scaling

/-- Runtime errors raised by the embedded Python code. -/
inductive PyError
  | zeroDivisionError
  deriving DecidableEq

/-- The tuple returned by `AutoReaction.calculate_placement`. -/
structure Placement where
  x : ℝ
  y : ℝ
  size : ℝ
  b1 : Option (ℝ × ℝ)
  b2 : Option (ℝ × ℝ)
  effective_angle_delta : ℝ

open Classical in
/-- The tail of `AutoReaction.calculate_placement` (`map.py` lines 405-445):
bezier control points, the bezier evaluation at `t = min (1.5/size) 1`, and the
effective angular delta.  The division `1.5 / size` raises
`ZeroDivisionError` in Python when `size = 0`, which the embedding makes
explicit. -/
noncomputable def calculate_placement_rest (angle0 unit refx refy : ℝ)
    (plus_minus : Bool) (angle x y size : ℝ)
    (b1_b2 : Option (Option (ℝ × ℝ) × Option (ℝ × ℝ)))
    (opts : PlacementOptions) : Except PyError Placement :=
  let pm : ℝ := if plus_minus then 1 else 0
  let b1b2 : Option (ℝ × ℝ) × Option (ℝ × ℝ) :=
    match b1_b2 with
    | some p => p
    | none =>
        (some (refx + unit * opts.b1_scale * size * Real.cos (angle0 + (1 - pm) * Real.pi),
               refy + unit * opts.b1_scale * size * Real.sin (angle0 + (1 - pm) * Real.pi)),
         some (x + unit * (1 - opts.b2_scale) * size * Real.cos (angle + (2 - pm) * Real.pi),
               y + unit * (1 - opts.b2_scale) * size * Real.sin (angle + (2 - pm) * Real.pi)))
  if size = 0 then .error .zeroDivisionError
  else
    let t := min (1.5 / size) 1.0
    let btx := cubic_bezier_bt t refx
      (match b1b2.1 with | some p => p.1 | none => refx)
      (match b1b2.2 with | some p => p.1 | none => x) x
    let bty := cubic_bezier_bt t refy
      (match b1b2.1 with | some p => p.2 | none => refy)
      (match b1b2.2 with | some p => p.2 | none => y) y
    let e0 := atan2 (bty - refy) (btx - refx) - angle0
    let e1 := if plus_minus then e0 else e0 + Real.pi
    .ok ⟨x, y, size, b1b2.1, b1b2.2, pyRemainder e1 (Real.pi * 2)⟩

open Classical in
/-- `AutoReaction.calculate_placement` from `map.py`.  `angle0` and `unit` are
`self.angle` and `self.unit`; `refx`, `refy` the reference node position;
`nx`, `ny` the metabolite node's optional position.  When the position is
known, `size` is the reference-to-node distance divided by `unit` (a division
that raises if `unit = 0`); otherwise the node is placed at radius
`unit * size` from the reference. -/
noncomputable def calculate_placement (angle0 unit refx refy : ℝ)
    (nx ny : Option ℝ) (node_is_primary : Bool)
    (plus_minus : Bool) (angle_delta n : ℝ)
    (b1_b2 : Option (Option (ℝ × ℝ) × Option (ℝ × ℝ)))
    (opts : PlacementOptions) : Except PyError Placement :=
  let pm : ℝ := if plus_minus then 1 else 0
  let angle := angle0 + angle_delta
  match nx, ny with
  | some x0, some y0 =>
      if unit = 0 then .error .zeroDivisionError
      else
        calculate_placement_rest angle0 unit refx refy plus_minus angle x0 y0
          (Real.sqrt ((x0 - refx) ^ 2 + (y0 - refy) ^ 2) / unit) b1_b2 opts
  | _, _ =>
      let size :=
        if node_is_primary then opts.scale else opts.no_primary_length_f n * opts.scale
      calculate_placement_rest angle0 unit refx refy plus_minus angle
        (refx + unit * size * Real.cos (angle + (1 - pm) * Real.pi))
        (refy + unit * size * Real.sin (angle + (1 - pm) * Real.pi))
        size b1_b2 opts

/-- Claim C3: calling `add_metabolite` on a node whose known position
coincides with the reference node makes `calculate_placement` compute
`size = 0` and evaluate `t = min (1.5/size, 1)`; the code performs the
division by zero (raising `ZeroDivisionError`) — it has no
`DegenerateGeometry` failure path. -/
theorem coincident_node_zero_division :
    calculate_placement 0 50 0 0 (some 0) (some 0) true true 0 0 none
      defaultPlacementOptions = .error .zeroDivisionError := by
  simp [calculate_placement, calculate_placement_rest, Real.sqrt_zero]

/-- `AutoReaction.alternating_side_placement` from `map.py`.  Python's `//`
and `%` on ints are floor division and nonnegative remainder (`Int.fdiv`,
`Int.emod`); `i` is the slot index, the trailing component is the trial
angular delta (`(n * delta) if side else -(n * delta)`).  The `plus_minus`
argument is unused in the source as well. -/
noncomputable def alternating_side_placement (i : ℕ) (delta : ℝ) (plus_minus : Bool) :
    ℤ × ℤ × ℝ :=
  let n : ℤ := 1 + Int.fdiv ((i : ℤ) - 1) 2
  let side : ℤ := Int.emod ((i : ℤ) - 1) 2
  (n, side, if side ≠ 0 then (n : ℝ) * delta else -((n : ℝ) * delta))

/-- The acceptance test of the slot-search loop in `AutoReaction.add_metabolite`
(`map.py` lines 478-481): `not any(abs(d - e) < tolδ for d in used)`. -/
def accepted (used : List ℝ) (tolδ e : ℝ) : Prop :=
  ∀ d ∈ used, ¬ |d - e| < tolδ

open Classical in
/-- The `for i in range(10)` search of `AutoReaction.add_metabolite`
(`map.py` lines 470-482), started at index `i` with `r` further iterations to
go.  The body either raises (propagated) or produces the trial
`(n, side, placement)`; the loop breaks at the first accepted effective
angular delta and otherwise keeps the values of the last iteration. -/
noncomputable def slot_search_from (used : List ℝ) (tolδ : ℝ)
    (body : ℕ → Except PyError (ℤ × ℤ × Placement)) : ℕ → ℕ → Except PyError (ℤ × ℤ × Placement)
  | i, 0 => body i
  | i, r + 1 =>
      match body i with
      | .error e => .error e
      | .ok a =>
          if accepted used tolδ a.2.2.effective_angle_delta then .ok a
          else slot_search_from used tolδ body (i + 1) r

/-- The full ten-candidate search: indices `0, 1, …, 9`. -/
noncomputable def slot_search (used : List ℝ) (tolδ : ℝ)
    (body : ℕ → Except PyError (ℤ × ℤ × Placement)) : Except PyError (ℤ × ℤ × Placement) :=
  slot_search_from used tolδ body 0 9

/-- One candidate of the search branch of `AutoReaction.add_metabolite`: the
slot-selection strategy `place` (by default `alternating_side_placement`)
yields `(n, side, angle_delta)`, and `calculate_placement` is evaluated on the
trial delta. -/
noncomputable def add_metabolite_candidate (place : ℕ → ℤ × ℤ × ℝ)
    (angle0 unit refx refy : ℝ) (nx ny : Option ℝ) (node_is_primary plus_minus : Bool)
    (b1_b2 : Option (Option (ℝ × ℝ) × Option (ℝ × ℝ)))
    (opts : PlacementOptions) (i : ℕ) : Except PyError (ℤ × ℤ × Placement) :=
  match place i with
  | (n, side, angle_delta) =>
      (calculate_placement angle0 unit refx refy nx ny node_is_primary plus_minus
        angle_delta (n : ℝ) b1_b2 opts).map (fun p => (n, side, p))

/-- The whole search branch of `AutoReaction.add_metabolite` (taken when the
node's position or the explicit bezier control points are not already fixed):
ten candidates, tolerance `delta_tolerance * delta`, history `used` =
`self._used_deltas[plus_minus]`. -/
noncomputable def add_metabolite_search (place : ℕ → ℤ × ℤ × ℝ)
    (angle0 unit refx refy : ℝ) (nx ny : Option ℝ) (node_is_primary plus_minus : Bool)
    (b1_b2 : Option (Option (ℝ × ℝ) × Option (ℝ × ℝ)))
    (opts : PlacementOptions) (used : List ℝ) : Except PyError (ℤ × ℤ × Placement) :=
  slot_search used (opts.delta_tolerance * opts.delta)
    (add_metabolite_candidate place angle0 unit refx refy nx ny node_is_primary
      plus_minus b1_b2 opts)

theorem slot_search_from_spec (used : List ℝ) (tolδ : ℝ)
    (body : ℕ → Except PyError (ℤ × ℤ × Placement)) (vals : ℕ → ℤ × ℤ × Placement) :
    ∀ r i, (∀ k, i ≤ k → k ≤ i + r → body k = .ok (vals k)) →
      ∃ j, i ≤ j ∧ j ≤ i + r ∧
        slot_search_from used tolδ body i r = .ok (vals j) ∧
        (∀ k, i ≤ k → k < j → ¬ accepted used tolδ (vals k).2.2.effective_angle_delta) ∧
        (accepted used tolδ (vals j).2.2.effective_angle_delta ∨ j = i + r) := by
  intro r
  induction r with
  | zero =>
      intro i hbody
      refine ⟨i, le_refl i, by omega, ?_, ?_, Or.inr (by omega)⟩
      · simpa [slot_search_from] using hbody i (le_refl i) (by omega)
      · intro k hk1 hk2; omega
  | succ r ih =>
      intro i hbody
      have hbi : body i = .ok (vals i) := hbody i (le_refl i) (by omega)
      by_cases hacc : accepted used tolδ (vals i).2.2.effective_angle_delta
      · refine ⟨i, le_refl i, by omega, ?_, ?_, Or.inl hacc⟩
        · simp only [slot_search_from, hbi, hacc, if_pos]
        · intro k hk1 hk2; omega
      · obtain ⟨j, hj1, hj2, hj3, hj4, hj5⟩ :=
          ih (i + 1) (fun k hk1 hk2 => hbody k (by omega) (by omega))
        refine ⟨j, by omega, by omega, ?_, ?_, ?_⟩
        · simp only [slot_search_from, hbi, hacc, if_neg, if_false]
          exact hj3
        · intro k hk1 hk2
          rcases eq_or_lt_of_le hk1 with h | h
          · simpa [← h] using hacc
          · exact hj4 k (by omega) hk2
        · rcases hj5 with h | h
          · exact Or.inl h
          · exact Or.inr (by omega)

theorem calculate_placement_rest_ok (angle0 unit refx refy : ℝ) (plus_minus : Bool)
    (angle x y size : ℝ) (b1_b2 : Option (Option (ℝ × ℝ) × Option (ℝ × ℝ)))
    (opts : PlacementOptions) (h : size ≠ 0) :
    ∃ p : Placement,
      calculate_placement_rest angle0 unit refx refy plus_minus angle x y size b1_b2 opts
        = .ok p := by
  simp only [calculate_placement_rest]
  split
  · exact absurd (by assumption) h
  · exact ⟨_, rfl⟩

theorem calculate_placement_unknown_ok (angle0 unit refx refy : ℝ)
    (node_is_primary plus_minus : Bool) (angle_delta n : ℝ)
    (b1_b2 : Option (Option (ℝ × ℝ) × Option (ℝ × ℝ))) (opts : PlacementOptions)
    (h : (if node_is_primary then opts.scale else opts.no_primary_length_f n * opts.scale) ≠ 0) :
    ∃ p : Placement,
      calculate_placement angle0 unit refx refy none none node_is_primary plus_minus
        angle_delta n b1_b2 opts = .ok p := by
  simp only [calculate_placement]
  exact calculate_placement_rest_ok _ _ _ _ _ _ _ _ _ _ _ h

/-- Claim C1: in the search branch of `AutoReaction.add_metabolite` (taken when
the node's position or its bezier control points are not already fixed), the
slot search evaluates at most 10 candidates of the slot-selection strategy
(indices 0..9), returns the first candidate whose effective angular delta is
not within `delta_tolerance * delta` of any delta already recorded on that
side, and, when none of the ten qualifies, returns the last (10th) candidate
evaluated. -/
theorem add_metabolite_slot_search_spec (place : ℕ → ℤ × ℤ × ℝ)
    (angle0 unit refx refy : ℝ) (nx ny : Option ℝ) (node_is_primary plus_minus : Bool)
    (b1_b2 : Option (Option (ℝ × ℝ) × Option (ℝ × ℝ)))
    (opts : PlacementOptions) (used : List ℝ)
    (hbody : ∀ k, k ≤ 9 → ∃ v, add_metabolite_candidate place angle0 unit refx refy
      nx ny node_is_primary plus_minus b1_b2 opts k = .ok v) :
    ∃ j, j ≤ 9 ∧ ∃ v,
      add_metabolite_search place angle0 unit refx refy nx ny node_is_primary
        plus_minus b1_b2 opts used = .ok v ∧
      add_metabolite_candidate place angle0 unit refx refy nx ny node_is_primary
        plus_minus b1_b2 opts j = .ok v ∧
      (∀ k, k < j → ∀ w, add_metabolite_candidate place angle0 unit refx refy nx ny
        node_is_primary plus_minus b1_b2 opts k = .ok w →
        ¬ accepted used (opts.delta_tolerance * opts.delta) w.2.2.effective_angle_delta) ∧
      (accepted used (opts.delta_tolerance * opts.delta) v.2.2.effective_angle_delta ∨ j = 9) := by
  classical
  set cand := add_metabolite_candidate place angle0 unit refx refy nx ny node_is_primary
    plus_minus b1_b2 opts with hcand
  have hvals : ∀ k, ∃ v, k ≤ 9 → cand k = .ok v := by
    intro k
    by_cases hk : k ≤ 9
    · obtain ⟨v, hv⟩ := hbody k hk
      exact ⟨v, fun _ => hv⟩
    · exact ⟨⟨0, 0, ⟨0, 0, 0, none, none, 0⟩⟩, fun h => absurd h hk⟩
  choose vals hvals using hvals
  obtain ⟨j, hj0, hj9, hrun, hbefore, hlast⟩ :=
    slot_search_from_spec used (opts.delta_tolerance * opts.delta) cand vals 9 0
      (fun k hk1 hk2 => hvals k (by omega))
  refine ⟨j, by omega, vals j, hrun, hvals j (by omega), ?_, hlast.imp id (by omega)⟩
  intro k hk w hw
  have := hbefore k (by omega) hk
  have hwk : w = vals k := by
    have h2 := hvals k (by omega)
    rw [hw] at h2
    exact Except.ok.inj h2
  rwa [hwk]

/-- Concrete placement options used to instantiate the search theorems. -/
noncomputable def c1opts : PlacementOptions :=
  ⟨1, 1, 1, 0, 0, fun x => x⟩

theorem add_metabolite_slot_search_spec_witness :
    ∃ j, j ≤ 9 ∧ ∃ v,
      add_metabolite_search (fun _ => (1, 1, 0)) 0 1 0 0 none none true true
        (some (none, none)) c1opts [] = .ok v ∧
      add_metabolite_candidate (fun _ => (1, 1, 0)) 0 1 0 0 none none true true
        (some (none, none)) c1opts j = .ok v ∧
      (∀ k, k < j → ∀ w, add_metabolite_candidate (fun _ => (1, 1, 0)) 0 1 0 0 none none
        true true (some (none, none)) c1opts k = .ok w →
        ¬ accepted [] (c1opts.delta_tolerance * c1opts.delta) w.2.2.effective_angle_delta) ∧
      (accepted [] (c1opts.delta_tolerance * c1opts.delta) v.2.2.effective_angle_delta ∨ j = 9) :=
  add_metabolite_slot_search_spec (fun _ => (1, 1, 0)) 0 1 0 0 none none true true
    (some (none, none)) c1opts []
    (fun k _ => by
      obtain ⟨p, hp⟩ := calculate_placement_unknown_ok 0 1 0 0 true true 0 1
        (some (none, none)) c1opts (by simp [c1opts])
      exact ⟨(1, 1, p), by simp [add_metabolite_candidate, hp, Except.map]⟩)

open Classical in
/-- The index at which the ten-candidate search of
`AutoReaction.add_metabolite` stops, as a pure recursion: the first index
whose effective angular delta `eff i` is accepted, the last index inspected
otherwise.  (`slot_search_from_eq_chosen` below ties it to `slot_search_from`.) -/
noncomputable def chosen_index (used : List ℝ) (tolδ : ℝ) (eff : ℕ → ℝ) : ℕ → ℕ → ℕ
  | i, 0 => i
  | i, r + 1 =>
      if accepted used tolδ (eff i) then i else chosen_index used tolδ eff (i + 1) r

/-- The evolution of one side of `AutoReaction._used_deltas` over a sequence
of `add_metabolite` calls that go through the search branch (`map.py` lines
470-484): each call contributes a function `eff` mapping a candidate index to
its effective angular delta, the search picks `chosen_index`, and the accepted
delta is appended to the history. -/
noncomputable def used_after (tolδ : ℝ) : List (ℕ → ℝ) → List ℝ → List ℝ
  | [], used => used
  | eff :: rest, used =>
      used_after tolδ rest (used ++ [eff (chosen_index used tolδ eff 0 9)])

theorem slot_search_from_eq_chosen (used : List ℝ) (tolδ : ℝ)
    (body : ℕ → Except PyError (ℤ × ℤ × Placement)) (vals : ℕ → ℤ × ℤ × Placement) :
    ∀ r i, (∀ k, i ≤ k → k ≤ i + r → body k = .ok (vals k)) →
      slot_search_from used tolδ body i r =
        .ok (vals (chosen_index used tolδ
          (fun k => (vals k).2.2.effective_angle_delta) i r)) := by
  intro r
  induction r with
  | zero =>
      intro i h
      simp only [slot_search_from, chosen_index]
      exact h i le_rfl (by omega)
  | succ r ih =>
      intro i h
      have hbi := h i le_rfl (by omega)
      by_cases hacc : accepted used tolδ (vals i).2.2.effective_angle_delta
      · simp only [slot_search_from, hbi, chosen_index, hacc, if_pos, if_true]
      · simp only [slot_search_from, hbi, chosen_index, hacc, if_neg, if_false]
        exact ih (i + 1) (fun k hk1 hk2 => h k (by omega) (by omega))

theorem chosen_index_accepted (used : List ℝ) (tolδ : ℝ) (eff : ℕ → ℝ) :
    ∀ r i, (∃ j, i ≤ j ∧ j ≤ i + r ∧ accepted used tolδ (eff j)) →
      accepted used tolδ (eff (chosen_index used tolδ eff i r)) := by
  intro r
  induction r with
  | zero =>
      rintro i ⟨j, hj1, hj2, hj3⟩
      have hij : j = i := by omega
      rw [chosen_index]
      rwa [hij] at hj3
  | succ r ih =>
      rintro i ⟨j, hj1, hj2, hj3⟩
      by_cases hacc : accepted used tolδ (eff i)
      · rw [chosen_index, if_pos hacc]; exact hacc
      · rw [chosen_index, if_neg hacc]
        apply ih
        refine ⟨j, ?_, by omega, hj3⟩
        rcases eq_or_lt_of_le hj1 with h | h
        · exact absurd (h ▸ hj3) hacc
        · omega

theorem used_after_pairwise_aux (tolδ : ℝ) :
    ∀ (effs : List (ℕ → ℝ)) (used : List ℝ),
      used.Pairwise (fun a b => tolδ ≤ |a - b|) →
      (∀ k (hk : k < effs.length),
        ∃ j, j ≤ 9 ∧
          accepted (used_after tolδ (effs.take k) used) tolδ (effs.get ⟨k, hk⟩ j)) →
      (used_after tolδ effs used).Pairwise (fun a b => tolδ ≤ |a - b|) := by
  intro effs
  induction effs with
  | nil =>
      intro used h _
      simpa [used_after] using h
  | cons eff rest ih =>
      intro used hpw hstep
      rw [used_after]
      apply ih
      · obtain ⟨j, hj9, hjacc⟩ := hstep 0 (by simp)
        simp only [List.take_zero, used_after, List.get] at hjacc
        have hchosen : accepted used tolδ (eff (chosen_index used tolδ eff 0 9)) :=
          chosen_index_accepted used tolδ eff 9 0 ⟨j, by omega, by omega, hjacc⟩
        rw [List.pairwise_append]
        refine ⟨hpw, by simp, ?_⟩
        intro a ha b hb
        simp only [List.mem_singleton] at hb
        subst hb
        exact not_lt.mp (hchosen a ha)
      · intro k hk
        have h2 := hstep (k + 1) (by simpa using Nat.succ_lt_succ hk)
        simpa [used_after, List.take_succ_cons, List.get] using h2

/-- Claim C2: over any sequence of `add_metabolite` calls whose search branch
accepts one of its ten candidates, the used-delta list of one stoichiometric
side stays pairwise separated: any two recorded effective angular deltas
differ by at least `delta_tolerance * delta`.  Each call is represented by the
function `eff` taking a candidate index to the effective angular delta that
`calculate_placement` yields for it. -/
theorem used_deltas_separated (tolerance delta : ℝ) (effs : List (ℕ → ℝ))
    (hstep : ∀ k (hk : k < effs.length),
      ∃ j, j ≤ 9 ∧ accepted (used_after (tolerance * delta) (effs.take k) [])
        (tolerance * delta) (effs.get ⟨k, hk⟩ j)) :
    (used_after (tolerance * delta) effs []).Pairwise
      (fun a b => tolerance * delta ≤ |a - b|) :=
  used_after_pairwise_aux (tolerance * delta) effs [] (by simp) hstep

theorem used_deltas_separated_witness :
    (∀ k (hk : k < [fun _ : ℕ => (0 : ℝ)].length),
      ∃ j, j ≤ 9 ∧ accepted (used_after ((1 : ℝ) * 1) ([fun _ : ℕ => (0 : ℝ)].take k) [])
        ((1 : ℝ) * 1) ([fun _ : ℕ => (0 : ℝ)].get ⟨k, hk⟩ j)) ∧
    (used_after ((1 : ℝ) * 1) [fun _ : ℕ => (0 : ℝ)] []).Pairwise
      (fun a b => (1 : ℝ) * 1 ≤ |a - b|) := by
  have h : ∀ k (hk : k < [fun _ : ℕ => (0 : ℝ)].length),
      ∃ j, j ≤ 9 ∧ accepted (used_after ((1 : ℝ) * 1) ([fun _ : ℕ => (0 : ℝ)].take k) [])
        ((1 : ℝ) * 1) ([fun _ : ℕ => (0 : ℝ)].get ⟨k, hk⟩ j) := by
    intro k hk
    have hk0 : k = 0 := by simpa using hk
    subst hk0
    refine ⟨0, by omega, ?_⟩
    intro d hd
    simp [used_after] at hd
  exact ⟨h, used_deltas_separated 1 1 [fun _ : ℕ => (0 : ℝ)] h⟩

/-- A node of the diagram model (`map.py`): the union of the fields of
`Node`/`MetaboliteNode`/`MultiMarkerNode`/`MidMarkerNode`, with `node_type`
as the variant tag. -/
structure MNode where
  identifier : Option ℕ := none
  node_type : String := ""
  x : Option ℝ := none
  y : Option ℝ := none
  bigg_id : String := ""
  name : String := ""
  label_x : Option ℝ := none
  label_y : Option ℝ := none
  node_is_primary : Bool := false

/-- `Segment` from `map.py`. -/
structure SegmentRec where
  from_node : MNode
  to_node : MNode
  b1 : Option (ℝ × ℝ) := none
  b2 : Option (ℝ × ℝ) := none

/-- The state of a `Reaction` (`map.py`) that `add_metabolite` touches.
As in the source, `multi_markers = (minus_multi_marker, plus_multi_marker)`. -/
structure ReactionState where
  mid_marker : MNode
  multi_markers : Option MNode × Option MNode
  metabolites : List (ℚ × MNode) := []
  segments : List SegmentRec := []

/-- `coefficient > 0`, the side selector used by both `Reaction.add_metabolite`
(line 237) and `AutoReaction.add_metabolite` (line 459). -/
def plus_minus (coefficient : ℚ) : Bool := coefficient > 0

/-- `self.multi_markers[plus_minus]`: Python indexes the pair with the bool,
`False ↦ 0` (minus), `True ↦ 1` (plus). -/
def ReactionState.multi_marker_at (r : ReactionState) (pm : Bool) : Option MNode :=
  if pm then r.multi_markers.2 else r.multi_markers.1

/-- `Reaction.add_metabolite` from `map.py` (lines 231-245) for a detached
reaction (`self._map is None`): append the `(coefficient, node)` pair, pick
the reference node (the sign's multi-marker when present, else the
mid-marker), and append the connecting segment, directed reference→node on
the plus side and node→reference on the minus side. -/
def Reaction.add_metabolite (r : ReactionState) (node : MNode) (coefficient : ℚ) :
    ReactionState :=
  let r1 := { r with metabolites := r.metabolites ++ [(coefficient, node)] }
  let pm := plus_minus coefficient
  let ref_node :=
    match r.multi_marker_at pm with
    | some mm => mm
    | none => r.mid_marker
  let segment :=
    if pm then SegmentRec.mk ref_node node none none
    else SegmentRec.mk node ref_node none none
  { r1 with segments := r1.segments ++ [segment] }

/-- `self._used_deltas[plus_minus].append(effective_angle_delta)` from
`AutoReaction.add_metabolite` (line 484); the pair is `(minus, plus)`. -/
def record_used_delta (used_deltas : List ℝ × List ℝ) (pm : Bool) (eff : ℝ) :
    List ℝ × List ℝ :=
  if pm then (used_deltas.1, used_deltas.2 ++ [eff])
  else (used_deltas.1 ++ [eff], used_deltas.2)

/-- A mid-marker, two distinct multi-markers and a metabolite node, used to
evaluate `Reaction.add_metabolite` on concrete inputs. -/
def c4_mid : MNode := { node_type := "midmarker" }

def c4_minus : MNode := { node_type := "multimarker", name := "minus" }

def c4_plus : MNode := { node_type := "multimarker", name := "plus" }

def c4_met : MNode := { node_type := "metabolite", bigg_id := "glc" }

def c4_reaction : ReactionState :=
  { mid_marker := c4_mid, multi_markers := (some c4_minus, some c4_plus) }

/-- Claim C4 counterexample: with both multi-markers present, a coefficient of
exactly 0 is counted as a minus-side metabolite — the created segment runs
from the metabolite node to the *minus* multi-marker (not from the plus
multi-marker to the node) and the delta is recorded in the minus side's
used-delta list. -/
theorem add_metabolite_zero_coefficient_counterexample :
    (Reaction.add_metabolite c4_reaction c4_met 0).segments =
      [SegmentRec.mk c4_met c4_minus none none] ∧
    c4_minus ≠ c4_plus ∧
    record_used_delta ([], []) (plus_minus 0) 1 = ([1], []) ∧
    ¬ record_used_delta ([], []) (plus_minus 0) 1 = ([], [1]) := by
  refine ⟨rfl, ?_, rfl, ?_⟩
  · intro h
    exact absurd (congrArg MNode.name h) (by decide)
  · intro h
    have h2 : ([(1 : ℝ)], ([] : List ℝ)) = (([] : List ℝ), [(1 : ℝ)]) :=
      (rfl : record_used_delta ([], []) (plus_minus 0) 1 = ([1], [])).symm.trans h
    exact List.cons_ne_nil 1 [] (congrArg Prod.fst h2)

/-- Claim C4 (amended): the side selector is `coefficient > 0`, so a strictly
positive coefficient is counted plus-side (plus multi-marker as reference,
delta recorded in the plus used-delta list, segment directed reference→node),
while a coefficient ≤ 0 — including exactly 0 — is counted minus-side (minus
multi-marker as reference, minus used-delta list, segment directed
node→reference). -/
theorem add_metabolite_sign_spec (r : ReactionState) (node : MNode) (c : ℚ) (eff : ℝ)
    (used : List ℝ × List ℝ) (mm_minus mm_plus : MNode)
    (hm : r.multi_markers = (some mm_minus, some mm_plus)) :
    (0 < c →
      (Reaction.add_metabolite r node c).segments =
        r.segments ++ [SegmentRec.mk mm_plus node none none] ∧
      record_used_delta used (plus_minus c) eff = (used.1, used.2 ++ [eff])) ∧
    (c ≤ 0 →
      (Reaction.add_metabolite r node c).segments =
        r.segments ++ [SegmentRec.mk node mm_minus none none] ∧
      record_used_delta used (plus_minus c) eff = (used.1 ++ [eff], used.2)) ∧
    (Reaction.add_metabolite r node c).metabolites = r.metabolites ++ [(c, node)] := by
  refine ⟨?_, ?_, by simp [Reaction.add_metabolite]⟩
  · intro hc
    have hpm : plus_minus c = true := by simp [plus_minus, hc]
    constructor
    · simp [Reaction.add_metabolite, hpm, ReactionState.multi_marker_at, hm]
    · simp [record_used_delta, hpm]
  · intro hc
    have hpm : plus_minus c = false := by simp [plus_minus, not_lt.mpr hc]
    constructor
    · simp [Reaction.add_metabolite, hpm, ReactionState.multi_marker_at, hm]
    · simp [record_used_delta, hpm]

theorem add_metabolite_sign_spec_witness :
    c4_reaction.multi_markers = (some c4_minus, some c4_plus) ∧ (0 : ℚ) < 1 ∧
    ((Reaction.add_metabolite c4_reaction c4_met 1).segments =
      c4_reaction.segments ++ [SegmentRec.mk c4_plus c4_met none none] ∧
     record_used_delta ([], []) (plus_minus 1) 2 = (([] : List ℝ), ([] : List ℝ) ++ [2])) :=
  ⟨rfl, by decide,
    (add_metabolite_sign_spec c4_reaction c4_met 1 2 ([], []) c4_minus c4_plus rfl).1
      (by decide)⟩

/-- The state of a `Map` (`map.py`) that `add_node` touches: the node registry
(as an association list in insertion order) and the running counter. -/
structure MapState where
  nodes : List (ℕ × MNode)
  node_counter : ℕ

def MapState.keys (m : MapState) : List ℕ := m.nodes.map Prod.fst

/-- The `while self._node_counter in self.nodes` search of `Map.add_node`:
first key ≥ `c` not in `keys`.  Called with fuel `keys.length + 1`, which
always suffices (among `c, …, c + keys.length` some key is unused). -/
def next_free (keys : List ℕ) : ℕ → ℕ → ℕ
  | 0, c => c
  | fuel + 1, c => if c ∈ keys then next_free keys fuel (c + 1) else c

/-- `Map.add_node` from `map.py` (lines 34-41).  Python mutates the map and
the node; the embedding returns both updated values.  `None` nodes and nodes
whose `identifier` is already set are returned untouched. -/
def MapState.add_node (m : MapState) (node : Option MNode) : MapState × Option MNode :=
  match node with
  | none => (m, none)
  | some n =>
      match n.identifier with
      | some _ => (m, some n)
      | none =>
          let i := next_free m.keys (m.nodes.length + 1) m.node_counter
          let n2 := { n with identifier := some i }
          ({ nodes := m.nodes ++ [(i, n2)], node_counter := i + 1 }, some n2)

/-- Claim C10: `Map.add_node` with `None`, or with a node whose identifier is
already assigned, leaves the map unchanged (no registry entry, counter not
advanced) and never reassigns the node's identifier. -/
theorem add_node_noop (m : MapState) (n : MNode) (k : ℕ) (hn : n.identifier = some k) :
    m.add_node none = (m, none) ∧ m.add_node (some n) = (m, some n) := by
  refine ⟨rfl, ?_⟩
  simp only [MapState.add_node, hn]

/-- A node with an already-assigned identifier. -/
def c10_node : MNode := { identifier := some 7 }

/-- An empty map with counter 0. -/
def c10_map : MapState := { nodes := [], node_counter := 0 }

theorem add_node_noop_witness :
    c10_node.identifier = some 7 ∧
    (c10_map.add_node none = (c10_map, none) ∧
     c10_map.add_node (some c10_node) = (c10_map, some c10_node)) :=
  ⟨rfl, add_node_noop c10_map c10_node 7 rfl⟩

/-- The two `ValueError`s of `place_reaction_on_backbone` (`pathway.py` lines
54-60): "Two metabolite nodes should be present in the map already, found
{n}." and "The two nodes appear at the same side of the reaction." -/
inductive BackboneError
  | insufficientBackboneNodes (found : ℕ)
  | sameSideBackbone
  deriving DecidableEq

/-- The `backbone_nodes` comprehension of `place_reaction_on_backbone`
(`pathway.py` lines 46-48): the metabolites whose node identifier is a key of
`map.nodes` (a `None` identifier is never a key). -/
def resident_nodes (keys : List ℕ) (reaction_info : List (ℚ × MNode)) :
    List (ℚ × MNode) :=
  reaction_info.filter fun cn =>
    match cn.2.identifier with
    | some i => decide (i ∈ keys)
    | none => false

/-- The body of the `while len(backbone_nodes) > 1` loop of
`place_reaction_on_backbone` (lines 49-53): the head stays fixed and
`pop(1)` removes successive second elements while they share the head's
stoichiometric sign, stopping at the first second element of opposite sign. -/
def drop_after_head (a : ℚ × MNode) : List (ℚ × MNode) → List (ℚ × MNode)
  | [] => []
  | b :: rest =>
      if plus_minus a.1 = plus_minus b.1 then drop_after_head a rest else b :: rest

/-- The full dropping loop applied to `backbone_nodes`. -/
def drop_same_side : List (ℚ × MNode) → List (ℚ × MNode)
  | [] => []
  | a :: rest => a :: drop_after_head a rest

/-- The backbone-node selection of `place_reaction_on_backbone` (`pathway.py`
lines 46-60): drop same-side second nodes, raise when fewer than two remain,
raise when the remaining first two still share a sign, otherwise return the
two selected `(coefficient, node)` pairs. -/
def place_reaction_select (keys : List ℕ) (reaction_info : List (ℚ × MNode)) :
    Except BackboneError ((ℚ × MNode) × (ℚ × MNode)) :=
  match drop_same_side (resident_nodes keys reaction_info) with
  | a :: b :: _ =>
      if plus_minus a.1 = plus_minus b.1 then .error .sameSideBackbone
      else .ok (a, b)
  | l => .error (.insufficientBackboneNodes l.length)

theorem drop_after_head_sign (a : ℚ × MNode) :
    ∀ l b rest, drop_after_head a l = b :: rest → plus_minus a.1 ≠ plus_minus b.1 := by
  intro l
  induction l with
  | nil => intro b rest h; simp [drop_after_head] at h
  | cons c t ih =>
      intro b rest h
      rw [drop_after_head] at h
      by_cases hc : plus_minus a.1 = plus_minus c.1
      · rw [if_pos hc] at h
        exact ih b rest h
      · rw [if_neg hc] at h
        obtain ⟨hb, -⟩ := List.cons.inj h
        rwa [hb] at hc

theorem drop_same_side_sign (l : List (ℚ × MNode)) (a b : ℚ × MNode)
    (rest : List (ℚ × MNode)) (h : drop_same_side l = a :: b :: rest) :
    plus_minus a.1 ≠ plus_minus b.1 := by
  match l with
  | [] => simp [drop_same_side] at h
  | c :: t =>
      rw [drop_same_side] at h
      obtain ⟨hc, ht⟩ := List.cons.inj h
      subst hc
      exact drop_after_head_sign c t b rest ht

/-- Claim C8: `place_reaction_on_backbone` selects its two backbone
metabolites by repeatedly dropping the second map-resident candidate while the
first two share a stoichiometric sign; it raises `InsufficientBackboneNodes`
exactly when fewer than two map-resident metabolites remain after dropping
(in particular when only one metabolite is map-resident), and raises
`SameSideBackbone` exactly when the final two still share a sign — a
condition the dropping loop makes impossible. -/
theorem place_reaction_select_spec (keys : List ℕ)
    (reaction_info : List (ℚ × MNode)) :
    ((∃ k, place_reaction_select keys reaction_info =
        .error (.insufficientBackboneNodes k)) ↔
      (drop_same_side (resident_nodes keys reaction_info)).length < 2) ∧
    (place_reaction_select keys reaction_info = .error .sameSideBackbone ↔
      (∃ a b rest, drop_same_side (resident_nodes keys reaction_info) = a :: b :: rest ∧
        plus_minus a.1 = plus_minus b.1)) ∧
    (∀ a b rest, drop_same_side (resident_nodes keys reaction_info) = a :: b :: rest →
      place_reaction_select keys reaction_info = .ok (a, b)) ∧
    ((resident_nodes keys reaction_info).length = 1 →
      place_reaction_select keys reaction_info =
        .error (.insufficientBackboneNodes 1)) := by
  have hsel : ∀ a b rest,
      drop_same_side (resident_nodes keys reaction_info) = a :: b :: rest →
      place_reaction_select keys reaction_info = .ok (a, b) := by
    intro a b rest h
    have hne := drop_same_side_sign _ a b rest h
    simp only [place_reaction_select, h]
    rw [if_neg hne]
  refine ⟨?_, ?_, hsel, ?_⟩
  · constructor
    · rintro ⟨k, hk⟩
      by_contra hlen
      push_neg at hlen
      match hD : drop_same_side (resident_nodes keys reaction_info) with
      | [] => rw [hD] at hlen; simp at hlen
      | [a] => rw [hD] at hlen; simp at hlen
      | a :: b :: rest =>
          rw [hsel a b rest hD] at hk
          exact Except.noConfusion hk
    · intro hlen
      match hD : drop_same_side (resident_nodes keys reaction_info) with
      | [] => exact ⟨0, by simp only [place_reaction_select, hD]; rfl⟩
      | [a] => exact ⟨1, by simp only [place_reaction_select, hD]; rfl⟩
      | a :: b :: rest => rw [hD] at hlen; simp at hlen; omega
  · constructor
    · intro hk
      match hD : drop_same_side (resident_nodes keys reaction_info) with
      | [] =>
          simp only [place_reaction_select, hD] at hk
          exact absurd (Except.error.inj hk) (by simp)
      | [a] =>
          simp only [place_reaction_select, hD] at hk
          exact absurd (Except.error.inj hk) (by simp)
      | a :: b :: rest =>
          rw [hsel a b rest hD] at hk
          exact Except.noConfusion hk
    · rintro ⟨a, b, rest, hD, hpm⟩
      exact absurd hpm (drop_same_side_sign _ a b rest hD)
  · intro hlen
    obtain ⟨x, hx⟩ := List.length_eq_one.mp hlen
    have hD : drop_same_side (resident_nodes keys reaction_info) = [x] := by
      rw [hx]; rfl
    simp only [place_reaction_select, hD]
    rfl

/-- A metabolite node already registered in the map under key 0. -/
def c8_node : MNode := { identifier := some 0 }

theorem place_reaction_select_spec_witness :
    (resident_nodes [0] [((1 : ℚ), c8_node)]).length = 1 ∧
    place_reaction_select [0] [((1 : ℚ), c8_node)] =
      .error (.insufficientBackboneNodes 1) :=
  ⟨rfl, (place_reaction_select_spec [0] [((1 : ℚ), c8_node)]).2.2.2 rfl⟩

/-- `is_within` from `kgml.py` (lines 20-30), translated verbatim — including
the `coord[1]` appearing in the horizontal branch's extent test. -/
def is_within (coord refcoord1 refcoord2 : ℚ × ℚ) : Bool :=
  let min_x := if refcoord1.1 < refcoord2.1 then refcoord1.1 else refcoord2.1
  let min_y := if refcoord1.2 < refcoord2.2 then refcoord1.2 else refcoord2.2
  let max_x := if refcoord1.1 ≥ refcoord2.1 then refcoord1.1 else refcoord2.1
  let max_y := if refcoord1.2 ≥ refcoord2.2 then refcoord1.2 else refcoord2.2
  if min_x = max_x then
    decide (coord.1 = min_x) && decide (min_y ≤ coord.2 ∧ coord.2 ≤ max_y)
  else if min_y = max_y then
    decide (coord.2 = min_y) && decide (min_x ≤ coord.2 ∧ coord.2 ≤ max_x)
  else false

/-- The containment property as the claim states it: for an axis-aligned
segment from `a` to `b`, the point has exact equality on the shared coordinate
and lies within the bounding extent of `a` and `b` on the other coordinate. -/
def spec_on_axis_segment (p a b : ℚ × ℚ) : Prop :=
  (a.1 = b.1 ∧ p.1 = a.1 ∧ min a.2 b.2 ≤ p.2 ∧ p.2 ≤ max a.2 b.2) ∨
  (a.2 = b.2 ∧ p.2 = a.2 ∧ min a.1 b.1 ≤ p.1 ∧ p.1 ≤ max a.1 b.1)

instance (p a b : ℚ × ℚ) : Decidable (spec_on_axis_segment p a b) :=
  inferInstanceAs (Decidable (_ ∨ _))

/-- Claim C6 at failing inputs: on horizontal segments `is_within` tests the
point's y coordinate against the x extent, so it accepts `(100, 5)` on the
segment `(0,5)–(10,5)` (off the segment) and rejects `(5, 0)` on the segment
`(2,0)–(10,0)` (on the segment).  The vertical branch agrees with the claimed
containment property. -/
theorem is_within_horizontal_bug :
    is_within (100, 5) (0, 5) (10, 5) = true ∧
    ¬ spec_on_axis_segment (100, 5) (0, 5) (10, 5) ∧
    is_within (5, 0) (2, 0) (10, 0) = false ∧
    spec_on_axis_segment (5, 0) (2, 0) (10, 0) ∧
    is_within (0, 5) (0, 0) (0, 10) = true ∧
    spec_on_axis_segment (0, 5) (0, 0) (0, 10) := by decide

/-- `itertools.pairwise`: consecutive pairs of a list. -/
def pairwise_points {α : Type} : List α → List (α × α)
  | a :: b :: rest => (a, b) :: pairwise_points (b :: rest)
  | _ => []

/-- The `lengths` list of `kgml_to_escher_map` (`kgml.py` lines 169-172):
`(coord2[0] - coord1[0]) ** 2 + (coord2[1] - coord1[1])` — the second term is
not squared. -/
def edge_lengths (line : List (ℚ × ℚ)) : List ℚ :=
  (pairwise_points line).map fun c => (c.2.1 - c.1.1) ^ 2 + (c.2.2 - c.1.2)

/-- `index_max = max(range(len(lengths)), key=lengths.__getitem__)`
(`kgml.py` line 173); Python's `max` keeps the first index among ties.
(`max` raises on an empty sequence; the claims evaluate nonempty lists only,
so the 0 default of the empty case is never reached there.) -/
def index_max_aux : List ℚ → ℕ → ℕ → ℚ → ℕ
  | [], _, besti, _ => besti
  | v :: rest, i, besti, bestv =>
      if bestv < v then index_max_aux rest (i + 1) i v
      else index_max_aux rest (i + 1) besti bestv

def index_max : List ℚ → ℕ
  | [] => 0
  | v :: rest => index_max_aux rest 1 0 v

/-- The edge metric as the claim states it: the true squared length
`(Δx)² + (Δy)²`. -/
def spec_squared_lengths (line : List (ℚ × ℚ)) : List ℚ :=
  (pairwise_points line).map fun c => (c.2.1 - c.1.1) ^ 2 + (c.2.2 - c.1.2) ^ 2

/-- The representative-edge midpoint of `kgml_to_escher_map` (`kgml.py` lines
174-177), taken from the edge selected by `index_max`.  (The `getD` default is
unreachable: `index_max` is an index into `lengths`.) -/
def backbone_selected_mid (line : List (ℚ × ℚ)) : ℚ × ℚ :=
  let i := index_max (edge_lengths line)
  let p1 := line.getD i (0, 0)
  let p2 := line.getD (i + 1) (0, 0)
  (p1.1 + (p2.1 - p1.1) / 2, p1.2 + (p2.2 - p1.2) / 2)

/-- Claim C7 at a failing input: on the backbone chain
`[(0,0), (0,5), (4,5)]` the code weighs edges by `(Δx)² + Δy`, giving
`[5, 16]` and selecting the second edge (midpoint `(2,5)`), while the true
squared lengths are `[25, 16]`, whose maximum is the first edge. -/
theorem backbone_edge_metric_bug :
    edge_lengths [((0 : ℚ), 0), (0, 5), (4, 5)] = [5, 16] ∧
    index_max (edge_lengths [((0 : ℚ), 0), (0, 5), (4, 5)]) = 1 ∧
    spec_squared_lengths [((0 : ℚ), 0), (0, 5), (4, 5)] = [25, 16] ∧
    index_max (spec_squared_lengths [((0 : ℚ), 0), (0, 5), (4, 5)]) = 0 ∧
    backbone_selected_mid [((0 : ℚ), 0), (0, 5), (4, 5)] = (2, 5) := by
  have h1 : edge_lengths [((0 : ℚ), 0), (0, 5), (4, 5)] = [5, 16] := by
    norm_num [edge_lengths, pairwise_points]
  have h2 : spec_squared_lengths [((0 : ℚ), 0), (0, 5), (4, 5)] = [25, 16] := by
    norm_num [spec_squared_lengths, pairwise_points]
  refine ⟨h1, ?_, h2, ?_, ?_⟩
  · rw [h1]
    norm_num [index_max, index_max_aux]
  · rw [h2]
    norm_num [index_max, index_max_aux]
  · rw [backbone_selected_mid, h1]
    norm_num [index_max, index_max_aux, List.getD]

/-- A value of the diagram interchange shape. -/
inductive EscherValue
  | num (q : ℚ)
  | str (s : String)
  deriving DecidableEq

/-- The metabolite record written by `Reaction.to_escher` (`map.py` line 255):
`{"coeficient": coeff, "bigg_id": node.bigg_id}` — note the spelling of the
first key. -/
def metabolite_to_escher (coefficient : ℚ) (bigg_id : String) :
    List (String × EscherValue) :=
  [("coeficient", .num coefficient), ("bigg_id", .str bigg_id)]

/-- Python dict lookup `d[key]` on a literal record; `none` models the
`KeyError` raise. -/
def dict_get (d : List (String × EscherValue)) (key : String) : Option EscherValue :=
  (d.find? fun kv => kv.1 == key).map Prod.snd

/-- The coefficient lookup of `load_as_template` (`template.py` lines 51-55
and line 87): `x["coefficient"]` on a metabolite record of the imported
reaction data. -/
def template_coefficient (record : List (String × EscherValue)) : Option EscherValue :=
  dict_get record "coefficient"

/-- Claim C5 evaluated at the decisive point: `Reaction.to_escher` writes a
metabolite's coefficient under the key `"coeficient"`, while
`load_as_template` reads the key `"coefficient"`.  The lookup fails
(`KeyError`) on every exported metabolite record, so re-importing an exported
map with at least one metabolite raises instead of reproducing the map. -/
theorem escher_metabolite_key_mismatch (coefficient : ℚ) (bigg_id : String) :
    template_coefficient (metabolite_to_escher coefficient bigg_id) = none ∧
    dict_get (metabolite_to_escher coefficient bigg_id) "coeficient" =
      some (.num coefficient) := by
  constructor <;>
    simp [template_coefficient, dict_get, metabolite_to_escher, List.find?]

/-- `center_point` of `alternating_pathways_sides` (`pathway.py` line 17). -/
noncomputable def pathways_center (node1 node2 : ℝ × ℝ) : ℝ × ℝ :=
  (node1.1 + (node2.1 - node1.1) / 2, node1.2 + (node2.2 - node1.2) / 2)

/-- `normal` of `alternating_pathways_sides` (`pathway.py` lines 14-18):
`(-dy/distance, dx/distance)` with `distance = sqrt(dx² + dy²)`.  (Python
raises on coincident input nodes; the claims only concern distinct ones.) -/
noncomputable def pathways_normal (node1 node2 : ℝ × ℝ) : ℝ × ℝ :=
  (-(node2.2 - node1.2) /
      Real.sqrt ((node2.1 - node1.1) ^ 2 + (node2.2 - node1.2) ^ 2),
   (node2.1 - node1.1) /
      Real.sqrt ((node2.1 - node1.1) ^ 2 + (node2.2 - node1.2) ^ 2))

/-- The signed offset of candidate `i` along the normal (`pathway.py` lines
22-28): `side = i % 2`, `f = i // 2` plus `0.5` in non-centered mode, and the
sign is `+1` on side 1 and `-1` on side 0. -/
noncomputable def pathways_offset (spacing : ℝ) (centered : Bool) (i : ℕ) : ℝ :=
  (if i % 2 ≠ 0 then 1 else -1) *
    ((i / 2 : ℕ) + (if centered then 0 else 0.5)) * spacing

/-- Candidate mid-marker position number `i` (`mid_marker_xy`,
`pathway.py` lines 26-29). -/
noncomputable def pathways_point (node1 node2 : ℝ × ℝ) (spacing : ℝ) (centered : Bool)
    (i : ℕ) : ℝ × ℝ :=
  ((pathways_center node1 node2).1 +
      pathways_offset spacing centered i * (pathways_normal node1 node2).1,
   (pathways_center node1 node2).2 +
      pathways_offset spacing centered i * (pathways_normal node1 node2).2)

/-- The acceptance test of `alternating_pathways_sides` (`pathway.py` line
30): no mid-marker lies within distance `spacing * 0.99` of the candidate. -/
def pathways_clear (mids : List (ℝ × ℝ)) (spacing : ℝ) (p : ℝ × ℝ) : Prop :=
  ∀ node ∈ mids,
    ¬ Real.sqrt ((p.1 - node.1) ^ 2 + (p.2 - node.2) ^ 2) < spacing * 0.99

open Classical in
/-- The `while True` search of `alternating_pathways_sides` with explicit
fuel (`none` on exhaustion); the claim theorem shows fuel
`2 * mids.length + 1` always returns `some`.  The loop starts at `i = 1` in
centered mode and at `i = 0` otherwise. -/
noncomputable def pathways_loop (node1 node2 : ℝ × ℝ) (mids : List (ℝ × ℝ))
    (spacing : ℝ) (centered : Bool) : ℕ → ℕ → Option (ℝ × ℝ)
  | _, 0 => none
  | i, fuel + 1 =>
      if pathways_clear mids spacing (pathways_point node1 node2 spacing centered i)
      then some (pathways_point node1 node2 spacing centered i)
      else pathways_loop node1 node2 mids spacing centered (i + 1) fuel

/-- The integer part of `pathways_offset`: the offset is
`(pathways_k + c₀) * spacing` with `c₀ = 0` in centered mode and `1/2`
otherwise. -/
def pathways_k (centered : Bool) (i : ℕ) : ℤ :=
  if i % 2 ≠ 0 then (i / 2 : ℕ)
  else if centered then -(i / 2 : ℕ) else -(i / 2 : ℕ) - 1

theorem pathways_offset_eq_k (spacing : ℝ) (centered : Bool) (i : ℕ) :
    pathways_offset spacing centered i =
      ((pathways_k centered i : ℝ) + (if centered then 0 else 1 / 2)) * spacing := by
  have h05 : (0.5 : ℝ) = 1 / 2 := by norm_num
  rw [pathways_offset, pathways_k]
  by_cases h : i % 2 ≠ 0 <;> by_cases hc : centered = true
  · rw [if_pos h, if_pos h, if_pos hc, if_pos hc]
    simp only [Int.cast_natCast]
    ring
  · rw [if_pos h, if_pos h, if_neg hc, if_neg hc, h05]
    simp only [Int.cast_natCast]
    ring
  · rw [if_neg h, if_neg h, if_pos hc, if_pos hc, if_pos hc]
    simp only [Int.cast_neg, Int.cast_natCast]
    ring
  · rw [if_neg h, if_neg h, if_neg hc, if_neg hc, if_neg hc, h05]
    simp only [Int.cast_sub, Int.cast_neg, Int.cast_one, Int.cast_natCast]
    ring

theorem pathways_k_inj (centered : Bool) (i j : ℕ)
    (hi : (if centered then 1 else 0) ≤ i) (hj : (if centered then 1 else 0) ≤ j)
    (h : pathways_k centered i = pathways_k centered j) : i = j := by
  rw [pathways_k, pathways_k] at h
  cases centered
  · by_cases h1 : i % 2 ≠ 0 <;> by_cases h2 : j % 2 ≠ 0 <;>
      simp only [h1, h2, ite_true, ite_false, Bool.false_eq_true, if_true, if_false] at h <;>
      omega
  · have hi1 : 1 ≤ i := by simpa using hi
    have hj1 : 1 ≤ j := by simpa using hj
    by_cases h1 : i % 2 ≠ 0 <;> by_cases h2 : j % 2 ≠ 0 <;>
      simp only [h1, h2, ite_true, ite_false, if_true, if_false] at h <;>
      omega

/-- The signed projection of a mid-marker onto the normal direction, measured
from the center point (an analysis quantity for the search, not a source
function). -/
noncomputable def pathways_tau (node1 node2 m : ℝ × ℝ) : ℝ :=
  (m.1 - (pathways_center node1 node2).1) * (pathways_normal node1 node2).1 +
  (m.2 - (pathways_center node1 node2).2) * (pathways_normal node1 node2).2

theorem pathways_normal_unit (node1 node2 : ℝ × ℝ) (hne : node1 ≠ node2) :
    (pathways_normal node1 node2).1 ^ 2 + (pathways_normal node1 node2).2 ^ 2 = 1 := by
  obtain ⟨x1, y1⟩ := node1
  obtain ⟨x2, y2⟩ := node2
  have hne2 : ¬(x1 = x2 ∧ y1 = y2) := by
    intro h
    exact hne (by simp [Prod.ext_iff, h.1, h.2])
  have hpos : 0 < (x2 - x1) ^ 2 + (y2 - y1) ^ 2 := by
    rcases not_and_or.mp hne2 with h | h
    · have : (x2 - x1) ^ 2 > 0 := pow_two_pos_of_ne_zero (sub_ne_zero.mpr (Ne.symm h))
      nlinarith [sq_nonneg (y2 - y1)]
    · have : (y2 - y1) ^ 2 > 0 := pow_two_pos_of_ne_zero (sub_ne_zero.mpr (Ne.symm h))
      nlinarith [sq_nonneg (x2 - x1)]
  have hs : (0 : ℝ) < Real.sqrt ((x2 - x1) ^ 2 + (y2 - y1) ^ 2) := Real.sqrt_pos.mpr hpos
  have hsq : Real.sqrt ((x2 - x1) ^ 2 + (y2 - y1) ^ 2) ^ 2 = (x2 - x1) ^ 2 + (y2 - y1) ^ 2 :=
    Real.sq_sqrt (le_of_lt hpos)
  simp only [pathways_normal]
  rw [div_pow, div_pow, div_add_div_same, hsq]
  rw [div_eq_one_iff_eq (by positivity)]
  ring

theorem pathways_blocked_offset (node1 node2 : ℝ × ℝ) (spacing : ℝ) (centered : Bool)
    (i : ℕ) (m : ℝ × ℝ) (hne : node1 ≠ node2) (hs : 0 < spacing)
    (hblock :
      Real.sqrt (((pathways_point node1 node2 spacing centered i).1 - m.1) ^ 2 +
        ((pathways_point node1 node2 spacing centered i).2 - m.2) ^ 2) <
        spacing * 0.99) :
    |pathways_offset spacing centered i - pathways_tau node1 node2 m| <
      spacing * 0.99 := by
  have hunit := pathways_normal_unit node1 node2 hne
  set nx := (pathways_normal node1 node2).1
  set ny := (pathways_normal node1 node2).2
  set cx := (pathways_center node1 node2).1
  set cy := (pathways_center node1 node2).2
  set o := pathways_offset spacing centered i with ho
  have h99 : (0 : ℝ) < spacing * 0.99 := by nlinarith
  have hd2 : ((cx + o * nx) - m.1) ^ 2 + ((cy + o * ny) - m.2) ^ 2 <
      (spacing * 0.99) ^ 2 := by
    have := (Real.sqrt_lt' h99).mp hblock
    simpa [pathways_point, ← ho] using this
  have hident : ((cx + o * nx) - m.1) ^ 2 + ((cy + o * ny) - m.2) ^ 2 =
      (o - ((m.1 - cx) * nx + (m.2 - cy) * ny)) ^ 2 +
      ((m.1 - cx) * ny - (m.2 - cy) * nx) ^ 2 +
      (nx ^ 2 + ny ^ 2 - 1) * (o ^ 2 - ((m.1 - cx) ^ 2 + (m.2 - cy) ^ 2)) := by
    ring
  rw [hunit] at hident
  have hkey : (o - pathways_tau node1 node2 m) ^ 2 < (spacing * 0.99) ^ 2 := by
    have hcross : (0 : ℝ) ≤ ((m.1 - cx) * ny - (m.2 - cy) * nx) ^ 2 := sq_nonneg _
    have : (o - ((m.1 - cx) * nx + (m.2 - cy) * ny)) ^ 2 ≤
        ((cx + o * nx) - m.1) ^ 2 + ((cy + o * ny) - m.2) ^ 2 := by
      rw [hident]; linarith
    calc (o - pathways_tau node1 node2 m) ^ 2
        = (o - ((m.1 - cx) * nx + (m.2 - cy) * ny)) ^ 2 := by rw [pathways_tau]
      _ ≤ ((cx + o * nx) - m.1) ^ 2 + ((cy + o * ny) - m.2) ^ 2 := this
      _ < (spacing * 0.99) ^ 2 := hd2
  rw [abs_lt]
  constructor <;> nlinarith [hkey, h99]

theorem two_apart_in_interval (γ : ℝ) (u v : ℤ) (hu : |(u : ℝ) - γ| < 0.99)
    (hv : |(v : ℝ) - γ| < 0.99) (huv : u + 2 ≤ v) : False := by
  rw [abs_lt] at hu hv
  have h : (u : ℝ) + 2 ≤ v := by exact_mod_cast huv
  linarith [hu.1, hu.2, hv.1, hv.2]

theorem three_ints_in_small_interval (γ : ℝ) (a b c : ℤ) (hab : a ≠ b) (hac : a ≠ c)
    (hbc : b ≠ c) (ha : |(a : ℝ) - γ| < 0.99) (hb : |(b : ℝ) - γ| < 0.99)
    (hc : |(c : ℝ) - γ| < 0.99) : False := by
  have h2 : a + 2 ≤ b ∨ b + 2 ≤ a ∨ a + 2 ≤ c ∨ c + 2 ≤ a ∨ b + 2 ≤ c ∨ c + 2 ≤ b := by
    omega
  rcases h2 with h | h | h | h | h | h
  · exact two_apart_in_interval γ a b ha hb h
  · exact two_apart_in_interval γ b a hb ha h
  · exact two_apart_in_interval γ a c ha hc h
  · exact two_apart_in_interval γ c a hc ha h
  · exact two_apart_in_interval γ b c hb hc h
  · exact two_apart_in_interval γ c b hc hb h

theorem pathways_blocked_k (node1 node2 : ℝ × ℝ) (spacing : ℝ) (centered : Bool)
    (i : ℕ) (m : ℝ × ℝ) (hne : node1 ≠ node2) (hs : 0 < spacing)
    (hblock :
      Real.sqrt (((pathways_point node1 node2 spacing centered i).1 - m.1) ^ 2 +
        ((pathways_point node1 node2 spacing centered i).2 - m.2) ^ 2) <
        spacing * 0.99) :
    |(pathways_k centered i : ℝ) -
      (pathways_tau node1 node2 m / spacing - (if centered then 0 else 1 / 2))| <
      0.99 := by
  have h1 := pathways_blocked_offset node1 node2 spacing centered i m hne hs hblock
  rw [pathways_offset_eq_k] at h1
  have hτ : pathways_tau node1 node2 m / spacing * spacing = pathways_tau node1 node2 m :=
    div_mul_cancel₀ _ (ne_of_gt hs)
  rw [abs_lt] at h1 ⊢
  constructor <;> nlinarith [h1.1, h1.2, hτ, hs]

theorem pathways_exists_clear (node1 node2 : ℝ × ℝ) (mids : List (ℝ × ℝ))
    (spacing : ℝ) (centered : Bool) (hne : node1 ≠ node2) (hs : 0 < spacing) :
    ∃ j, (if centered then 1 else 0) ≤ j ∧
      j ≤ (if centered then 1 else 0) + 2 * mids.length ∧
      pathways_clear mids spacing (pathways_point node1 node2 spacing centered j) := by
  classical
  by_contra hcon
  push_neg at hcon
  set i0 := (if centered then 1 else 0) with hi0
  set n := mids.length with hn
  set S := Finset.Icc i0 (i0 + 2 * n) with hS
  have hblock : ∀ j ∈ S, ∃ t : Fin mids.length,
      Real.sqrt (((pathways_point node1 node2 spacing centered j).1 - (mids.get t).1) ^ 2 +
        ((pathways_point node1 node2 spacing centered j).2 - (mids.get t).2) ^ 2) <
        spacing * 0.99 := by
    intro j hj
    rw [hS, Finset.mem_Icc] at hj
    have hnc := hcon j hj.1 hj.2
    rw [pathways_clear] at hnc
    push_neg at hnc
    obtain ⟨node, hmem, hlt⟩ := hnc
    obtain ⟨t, ht⟩ := List.mem_iff_get.mp hmem
    exact ⟨t, by rw [ht]; exact hlt⟩
  choose f hf using hblock
  set F : ℕ → ℕ := fun j => if h : j ∈ S then (f j h).val else 0 with hF
  have hFrange : ∀ j ∈ S, F j ∈ Finset.range n := by
    intro j hj
    rw [hF]
    simp only [dif_pos hj, Finset.mem_range]
    exact (f j hj).isLt
  have hcard : S.card = ∑ b ∈ Finset.range n, (S.filter fun j => F j = b).card :=
    Finset.card_eq_sum_card_fiberwise hFrange
  have hcardS : S.card = 2 * n + 1 := by
    rw [hS, Nat.card_Icc]
    omega
  have hfiber : ∀ b ∈ Finset.range n, (S.filter fun j => F j = b).card ≤ 2 := by
    intro b hb
    rw [Finset.mem_range] at hb
    by_contra hgt
    push_neg at hgt
    obtain ⟨x, y, z, hx, hy, hz, hxy, hxz, hyz⟩ := Finset.two_lt_card_iff.mp hgt
    rw [Finset.mem_filter] at hx hy hz
    have hblocked : ∀ w (hw : w ∈ S), F w = b →
        Real.sqrt (((pathways_point node1 node2 spacing centered w).1 -
            (mids.get ⟨b, hb⟩).1) ^ 2 +
          ((pathways_point node1 node2 spacing centered w).2 -
            (mids.get ⟨b, hb⟩).2) ^ 2) < spacing * 0.99 := by
      intro w hw hwb
      have hfw : f w hw = ⟨b, hb⟩ := by
        apply Fin.ext
        rw [hF] at hwb
        simpa [dif_pos hw] using hwb
      have := hf w hw
      rwa [hfw] at this
    have hwS : ∀ w, w ∈ S → i0 ≤ w := by
      intro w hw
      rw [hS, Finset.mem_Icc] at hw
      exact hw.1
    have hkx := pathways_blocked_k node1 node2 spacing centered x (mids.get ⟨b, hb⟩)
      hne hs (hblocked x hx.1 hx.2)
    have hky := pathways_blocked_k node1 node2 spacing centered y (mids.get ⟨b, hb⟩)
      hne hs (hblocked y hy.1 hy.2)
    have hkz := pathways_blocked_k node1 node2 spacing centered z (mids.get ⟨b, hb⟩)
      hne hs (hblocked z hz.1 hz.2)
    have hk_inj : ∀ u v, u ∈ S → v ∈ S →
        pathways_k centered u = pathways_k centered v → u = v := by
      intro u v hu hv huv
      exact pathways_k_inj centered u v (hi0 ▸ hwS u hu) (hi0 ▸ hwS v hv) huv
    exact three_ints_in_small_interval
      (pathways_tau node1 node2 (mids.get ⟨b, hb⟩) / spacing -
        (if centered then 0 else 1 / 2))
      (pathways_k centered x) (pathways_k centered y) (pathways_k centered z)
      (fun h => hxy (hk_inj x y hx.1 hy.1 h))
      (fun h => hxz (hk_inj x z hx.1 hz.1 h))
      (fun h => hyz (hk_inj y z hy.1 hz.1 h))
      hkx hky hkz
  have hsum : ∑ b ∈ Finset.range n, (S.filter fun j => F j = b).card ≤ 2 * n := by
    calc ∑ b ∈ Finset.range n, (S.filter fun j => F j = b).card
        ≤ ∑ _b ∈ Finset.range n, 2 := Finset.sum_le_sum hfiber
      _ = 2 * n := by simp [Finset.sum_const, Finset.card_range, Nat.mul_comm]
  omega

theorem pathways_loop_finds (node1 node2 : ℝ × ℝ) (mids : List (ℝ × ℝ))
    (spacing : ℝ) (centered : Bool) :
    ∀ fuel i, (∃ j, i ≤ j ∧ j < i + fuel ∧
        pathways_clear mids spacing (pathways_point node1 node2 spacing centered j)) →
      ∃ jj, i ≤ jj ∧
        pathways_loop node1 node2 mids spacing centered i fuel =
          some (pathways_point node1 node2 spacing centered jj) ∧
        pathways_clear mids spacing (pathways_point node1 node2 spacing centered jj) := by
  intro fuel
  induction fuel with
  | zero =>
      rintro i ⟨j, hj1, hj2, -⟩
      omega
  | succ fuel ih =>
      rintro i ⟨j, hj1, hj2, hj3⟩
      by_cases hc :
        pathways_clear mids spacing (pathways_point node1 node2 spacing centered i)
      · exact ⟨i, le_rfl, by rw [pathways_loop, if_pos hc], hc⟩
      · have hji : j ≠ i := fun h => hc (h ▸ hj3)
        obtain ⟨jj, hjj1, hjj2, hjj3⟩ := ih (i + 1) ⟨j, by omega, by omega, hj3⟩
        exact ⟨jj, by omega, by rw [pathways_loop, if_neg hc]; exact hjj2, hjj3⟩

/-- Claim C9: for backbone nodes at distinct positions and positive spacing,
the default mid-marker strategy `alternating_pathways_sides` terminates (fuel
`2 * mids.length + 1` already suffices for the unbounded `while True` loop),
and the returned point lies on the perpendicular through the backbone's
midpoint — center + offset · normal with the normal orthogonal to the
backbone — at an offset that is an alternating-side multiple of the spacing
(an integer multiple in centered mode, integer-plus-one-half otherwise), and
is at least `0.99 * spacing` away from every mid-marker in the list. -/
theorem alternating_pathways_sides_spec (node1 node2 : ℝ × ℝ) (mids : List (ℝ × ℝ))
    (spacing : ℝ) (centered : Bool) (hne : node1 ≠ node2) (hs : 0 < spacing) :
    ∃ p i, pathways_loop node1 node2 mids spacing centered (if centered then 1 else 0)
        (2 * mids.length + 1) = some p ∧
      p = pathways_point node1 node2 spacing centered i ∧
      (∀ node ∈ mids, spacing * 0.99 ≤
        Real.sqrt ((p.1 - node.1) ^ 2 + (p.2 - node.2) ^ 2)) ∧
      (pathways_normal node1 node2).1 * (node2.1 - node1.1) +
        (pathways_normal node1 node2).2 * (node2.2 - node1.2) = 0 ∧
      ∃ k : ℤ, pathways_offset spacing centered i =
        ((k : ℝ) + (if centered then 0 else 1 / 2)) * spacing := by
  obtain ⟨j, hj1, hj2, hj3⟩ := pathways_exists_clear node1 node2 mids spacing centered hne hs
  obtain ⟨jj, hjj1, hjj2, hjj3⟩ := pathways_loop_finds node1 node2 mids spacing centered
    (2 * mids.length + 1) (if centered then 1 else 0) ⟨j, hj1, by omega, hj3⟩
  refine ⟨_, jj, hjj2, rfl, ?_, ?_,
    ⟨pathways_k centered jj, pathways_offset_eq_k _ _ _⟩⟩
  · intro node hmem
    exact not_lt.mp (hjj3 node hmem)
  · rw [pathways_normal]
    ring

theorem alternating_pathways_sides_spec_witness :
    ((0 : ℝ), (0 : ℝ)) ≠ ((2 : ℝ), (0 : ℝ)) ∧ (0 : ℝ) < 1 ∧
    (∃ p i, pathways_loop (0, 0) (2, 0) [] 1 true 1 (2 * ([] : List (ℝ × ℝ)).length + 1) =
        some p ∧
      p = pathways_point (0, 0) (2, 0) 1 true i ∧
      (∀ node ∈ ([] : List (ℝ × ℝ)), (1 : ℝ) * 0.99 ≤
        Real.sqrt ((p.1 - node.1) ^ 2 + (p.2 - node.2) ^ 2)) ∧
      (pathways_normal (0, 0) (2, 0)).1 * (((2 : ℝ), (0 : ℝ)).1 - ((0 : ℝ), (0 : ℝ)).1) +
        (pathways_normal (0, 0) (2, 0)).2 * (((2 : ℝ), (0 : ℝ)).2 - ((0 : ℝ), (0 : ℝ)).2) = 0 ∧
      ∃ k : ℤ, pathways_offset 1 true i = ((k : ℝ) + (if true then 0 else 1 / 2)) * 1) := by
  have hne : ((0 : ℝ), (0 : ℝ)) ≠ ((2 : ℝ), (0 : ℝ)) := by
    intro h
    exact two_ne_zero ((congrArg Prod.fst h).symm : (2 : ℝ) = 0)
  exact ⟨hne, zero_lt_one,
    alternating_pathways_sides_spec (0, 0) (2, 0) [] 1 true hne zero_lt_one⟩

end BiggrMaps
